import Mathlib

/-!
Verification development for the PupPal Zurich dog-breed recommender.

Shallow embedding of the Python sources (`userdata.py`, `districts.py`,
`graphs.py`, `user_demographics.py`, `user_preference.py`,
`breeds_decision_tree.py`, `data_loader.py`, `main.py`) in Lean 4.
Python `float` arithmetic is modelled over `ℚ` (and over `ℝ` where the
code uses transcendental functions), raised exceptions and failed
`assert` statements are modelled by `Option.none`, and Python `dict`s
are modelled as association lists.
-/

namespace PupPal

/-- Embedding of `districts.District`: a Zurich district.  The Python
dataclass keys its `__district_distances` dictionary by `District`
objects; since districts in the program are identified by their
`district_id`, the cached-distance map is modelled as an association
list keyed by the destination's id. -/
structure District where
  district_id : Int
  district_name : String
  district_distances : List (Int × ℚ)
deriving DecidableEq, Repr

/-- Embedding of `District.get_distance`: returns `1.0` for the same
district, the cached value otherwise, and raises `RuntimeError`
(modelled as `none`) when the destination is absent (which also covers
the empty/uninitialized dictionary). -/
def District.get_distance (self other : District) : Option ℚ :=
  if other = self then some 1
  else
    match self.district_distances.lookup other.district_id with
    | some d => some d
    | none => none

/-- Embedding of `userdata.User`: a dog owner or potential dog owner.
Representation invariant of the source: `gender ∈ {'F', 'M', 'O'}`. -/
structure User where
  user_id : Int
  age : Int
  gender : String
  district : District
deriving DecidableEq, Repr

/-- The local `age_score` of `User.compare` (`userdata.py`):
`(-0.0001 * (age_diff ** 2)) + 1` with `age_diff = abs(other.age - self.age)`. -/
def age_score (self other : User) : ℚ :=
  -(1/10000) * (((|other.age - self.age| : Int) : ℚ) ^ 2) + 1

/-- The local `gender_score` of `User.compare` (`userdata.py`):
`1.0 if self.gender in [other.gender, 'o'] else 0.5`.  Note the source
literally tests against the lowercase string `'o'`. -/
def gender_score (self other : User) : ℚ :=
  if self.gender = other.gender ∨ self.gender = "o" then 1 else 1/2

/-- Embedding of `User.compare` (`userdata.py`): similarity of `self`
to `other` from age, gender and district.  Each `assert` of the source
is modelled as a guard returning `none` on failure; the Python
constants `-0.0001`, `0.4`, `0.2` appear as exact rationals, and the
locals `age_score` / `gender_score` of the source are the definitions
above. -/
def User.compare (self other : User) : Option ℚ :=
  if 0 ≤ age_score self other ∧ age_score self other ≤ 1 then
    if 0 ≤ gender_score self other ∧ gender_score self other ≤ 1 then
      match self.district.get_distance other.district with
      | none => none
      | some district_score =>
        if 0 ≤ district_score ∧ district_score ≤ 1 then
          if 0 ≤ 2/5 * age_score self other + 1/5 * gender_score self other
                  + 2/5 * district_score ∧
              2/5 * age_score self other + 1/5 * gender_score self other
                  + 2/5 * district_score ≤ 1 then
            some (2/5 * age_score self other + 1/5 * gender_score self other
                  + 2/5 * district_score)
          else none
        else none
    else none
  else none

/-! ### Graphs (`graphs.py`)

`Graph` stores `_Vertex` objects in a dictionary keyed by element; each
vertex holds a set of neighbouring vertex objects, and `add_edge`
inserts each endpoint into the other's neighbour set.  The state is
modelled as the insertion-ordered list of vertex keys together with
the list of (element, neighbour-element) pairs; `add_edge` adds both
directions, mirroring the two `add` calls of the source. -/

structure Graph (α : Type) where
  vertices : List α
  nbrs : List (α × α)
deriving DecidableEq, Repr

/-- `Graph.__init__`: no vertices or edges. -/
def Graph.empty (α : Type) : Graph α := ⟨[], []⟩

/-- `Graph.add_vertex`: do nothing if the item is already present. -/
def Graph.add_vertex [DecidableEq α] (g : Graph α) (item : α) : Graph α :=
  if item ∈ g.vertices then g
  else { vertices := g.vertices ++ [item], nbrs := g.nbrs }

/-- `set.add` on a neighbour set: adding an already-present pair is a no-op. -/
def addPair [DecidableEq α] (l : List (α × α)) (p : α × α) : List (α × α) :=
  if p ∈ l then l else l ++ [p]

/-- `Graph.add_edge`: raises `ValueError` (modelled `none`) unless both
items are vertices; otherwise inserts each endpoint into the other's
neighbour set. -/
def Graph.add_edge [DecidableEq α] (g : Graph α) (item1 item2 : α) : Option (Graph α) :=
  if item1 ∈ g.vertices ∧ item2 ∈ g.vertices then
    some { g with nbrs := addPair (addPair g.nbrs (item1, item2)) (item2, item1) }
  else none

/-- `Graph.adjacent`: `False` when either item is missing, else whether
some neighbour of `item1` has element equal to `item2`. -/
def Graph.adjacent [DecidableEq α] (g : Graph α) (item1 item2 : α) : Bool :=
  if item1 ∈ g.vertices ∧ item2 ∈ g.vertices then
    g.nbrs.any (fun p => decide (p.1 = item1) && decide (p.2 = item2))
  else false

/-- `Graph.get_neighbours`: the neighbour *elements* of the item;
raises `ValueError` (modelled `none`) when the item is absent. -/
def Graph.get_neighbours [DecidableEq α] (g : Graph α) (item : α) : Option (List α) :=
  if item ∈ g.vertices then
    some (g.nbrs.filterMap (fun p => if p.1 = item then some p.2 else none))
  else none

/-- `Graph.get_all_nodes`: the set of vertex keys. -/
def Graph.get_all_nodes (g : Graph α) : List α := g.vertices

/-- A mutating graph operation of the source API. -/
inductive GOp (α : Type) where
  | add_vertex (item : α)
  | add_edge (item1 item2 : α)
deriving DecidableEq, Repr

/-- Run one operation; a failing `add_edge` raises before mutating, so
the state is unchanged. -/
def Graph.applyOp [DecidableEq α] (g : Graph α) : GOp α → Graph α
  | .add_vertex a => g.add_vertex a
  | .add_edge a b => (g.add_edge a b).getD g

/-- Run a sequence of mutating operations. -/
def Graph.runOps [DecidableEq α] (g : Graph α) : List (GOp α) → Graph α
  | [] => g
  | op :: ops => (g.applyOp op).runOps ops

/-! ### Demographic recommendations (`user_demographics.py`) -/

/-- A vertex element of the dog graph: a `User` (owner profile) or a
dog-breed name (string). -/
inductive Node where
  | user (u : User)
  | breed (name : String)
deriving DecidableEq, Repr

/-- `isinstance(node, User)`. -/
def Node.isUser : Node → Bool
  | .user _ => true
  | .breed _ => false

/-- `{node for node in dog_graph.get_all_nodes() if not isinstance(node, User)}`:
the breed names among the vertices, in vertex order. -/
def dogBreedsOf (dog_graph : Graph Node) : List String :=
  dog_graph.get_all_nodes.filterMap (fun n =>
    match n with
    | .user _ => none
    | .breed b => some b)

/-- `[target.compare(input_user) for target in user_owners]`.  Calling
`compare` on a non-`User` neighbour is an `AttributeError` (`none`),
and a failing assertion inside `compare` propagates. -/
def ownerSimilarities (input_user : User) : List Node → Option (List ℚ)
  | [] => some []
  | n :: rest =>
    match (match n with | .user u => u.compare input_user | .breed _ => none) with
    | none => none
    | some q =>
      match ownerSimilarities input_user rest with
      | none => none
      | some qs => some (q :: qs)

/-- The smoothed score of one breed:
`(sum([target.compare(input_user) ...]) + 7) / (len(user_owners) + 10)`. -/
def dogBreedScore (input_user : User) (dog_graph : Graph Node) (b : String) : Option ℚ :=
  match dog_graph.get_neighbours (Node.breed b) with
  | none => none
  | some user_owners =>
    match ownerSimilarities input_user user_owners with
    | none => none
    | some sims => some ((sims.sum + 7) / ((sims.length : ℚ) + 10))

/-- The `dog_breed_score` dictionary, built breed by breed, as an
association list in breed order. -/
def dogBreedScores (input_user : User) (dog_graph : Graph Node) :
    List String → Option (List (String × ℚ))
  | [] => some []
  | b :: rest =>
    match dogBreedScore input_user dog_graph b with
    | none => none
    | some s =>
      match dogBreedScores input_user dog_graph rest with
      | none => none
      | some l => some ((b, s) :: l)

/-- The inner `for dog_breed in dog_breed_score` scan: starting from
`max_score = -1`, `max_breed = ''`, take each entry whose score is
strictly greater than the running maximum. -/
def findMaxLoop : List (String × ℚ) → ℚ → String → ℚ × String
  | [], max_score, max_breed => (max_score, max_breed)
  | (b, s) :: rest, max_score, max_breed =>
    if s > max_score then findMaxLoop rest s b else findMaxLoop rest max_score max_breed

/-- The `while len(top_matches) < limit` extraction loop: repeatedly
find the maximum, append `(max_breed, dog_breed_score[max_breed])` and
pop it.  When the dictionary is exhausted (or `max_breed` is the
initial `''`), the subscript raises `KeyError`, modelled `none`. -/
def extractTop : Nat → List (String × ℚ) → Option (List (String × ℚ))
  | 0, _ => some []
  | n + 1, dog_breed_score =>
    let mm := findMaxLoop dog_breed_score (-1) ""
    match dog_breed_score.lookup mm.2 with
    | none => none
    | some s =>
      match extractTop n (dog_breed_score.filter (fun p => p.1 != mm.2)) with
      | none => none
      | some rest => some ((mm.2, s) :: rest)

/-- Embedding of `get_demographic_recommendations` (`user_demographics.py`). -/
def get_demographic_recommendations (input_user : User) (limit : Nat)
    (dog_graph : Graph Node) : Option (List (String × ℚ)) :=
  match dogBreedScores input_user dog_graph (dogBreedsOf dog_graph) with
  | none => none
  | some dog_breed_score => extractTop limit dog_breed_score

/-! ### Preference normalization (`user_preference.py`) -/

/-- The min/max scan loop of `normalize_preference_recommendations`:
`min_score` starts at `math.inf` and `max_score` at `-math.inf` (both
modelled as `none`); each element replaces them when strictly smaller
(resp. greater). -/
def scanMinMax : List (String × Int) → Option Int → Option Int → Option Int × Option Int
  | [], mn, mx => (mn, mx)
  | p :: rest, mn, mx =>
    scanMinMax rest
      (match mn with
       | none => some p.2
       | some m => if p.2 < m then some p.2 else some m)
      (match mx with
       | none => some p.2
       | some m => if p.2 > m then some p.2 else some m)

/-- Embedding of `normalize_preference_recommendations`
(`user_preference.py`): pad the max upward by the raw spread and the
min downward symmetrically, then min-max normalize.  On an empty list
the loop body never runs and `[]` is returned; when the padded range
is zero (all scores equal) the division raises `ZeroDivisionError`
(modelled `none`). -/
def normalize_preference_recommendations (scores : List (String × Int)) :
    Option (List (String × ℚ)) :=
  match scanMinMax scores none none with
  | (some min_score, some max_score) =>
    let max1 : Int := max_score + (max_score - min_score)
    let min1 : Int := max1 - (max1 - min_score) * 2
    if max1 - min1 = 0 then none
    else
      some (scores.map (fun p =>
        (p.1, ((p.2 : ℚ) - (min1 : ℚ)) / ((max1 : ℚ) - (min1 : ℚ)))))
  | _ => some []

/-! ### Decision tree (`breeds_decision_tree.py`) -/

/-- Embedding of `breeds_decision_tree.Tree`: a root label and a list
of subtrees. -/
inductive Tree where
  | mk (root : String) (subtrees : List Tree)

/-- The `_root` attribute. -/
def Tree.root : Tree → String
  | .mk r _ => r

/-- The `_subtrees` attribute. -/
def Tree.subtrees : Tree → List Tree
  | .mk _ s => s

/-- One level of `Tree.insert_sequence`: `contain_num` finds the first
subtree whose root equals the item and the rest of the sequence is
inserted into it in place; otherwise a fresh `Tree(item, [])` is
appended and the rest inserted into it.  `ins` is the insertion of the
remaining sequence. -/
def insertHere (subs : List Tree) (x : String) (ins : Tree → Tree) : List Tree :=
  match subs with
  | [] => [ins (Tree.mk x [])]
  | s :: ss => if s.root = x then ins s :: ss else s :: insertHere ss x ins

/-- Embedding of `Tree.insert_sequence`. -/
def insert_sequence : Tree → List String → Tree
  | t, [] => t
  | .mk r subs, x :: rest => .mk r (insertHere subs x (fun t0 => insert_sequence t0 rest))

/-- Embedding of `Tree.decision_tree_method`: walk down the choices,
taking the first subtree whose root matches; if no child matches,
return `[]`; at the end return the labels of the children of the node
reached. -/
def decision_tree_method (t : Tree) (choices : List String) : List String :=
  match choices with
  | [] => t.subtrees.map Tree.root
  | c :: rest =>
    match t.subtrees.find? (fun s => s.root == c) with
    | some sub => decision_tree_method sub rest
    | none => []

/-- A choice sequence whose path is absent at some step: walking the
choices down from `t`, some step finds no subtree whose root matches
the next choice.  This is the failure condition of the walk in
`Tree.decision_tree_method` (`if value in [subtree._root ...]` being
false at some iteration). -/
def pathAbsent (t : Tree) : List String → Bool
  | [] => false
  | c :: rest =>
    match t.subtrees.find? (fun s => s.root == c) with
    | none => true
    | some sub => pathAbsent sub rest

/-! ### District distance normalization (`data_loader.py`) -/

/-- The running `min(distance, min_distance)` with `min_distance`
starting at `math.inf` (modelled `none`). -/
def ndMin : List ℚ → Option ℚ → Option ℚ
  | [], mn => mn
  | v :: rest, mn =>
    match mn with
    | none => ndMin rest (some v)
    | some m => ndMin rest (some (min v m))

/-- The running `max(distance, max_distance)` with `max_distance`
starting at `0`. -/
def ndMax : List ℚ → ℚ → ℚ
  | [], mx => mx
  | v :: rest, mx => ndMax rest (max v mx)

/-- Embedding of `normalize_district_distances` (`data_loader.py`).
The first pass asserts `origin != destination` on every entry and
scans min/max; `max_distance == 0` raises `ValueError`; the second
pass remaps every value to `1 - (d - min)/(max - min)` (a zero spread
raises `ZeroDivisionError`) and asserts `0.0 <= value <= 1.0`.  All
raised exceptions and failed assertions are modelled as `none`. -/
def normalize_district_distances (raw : List (District × List (District × ℚ))) :
    Option (List (District × List (District × ℚ))) :=
  if raw.any (fun op => op.2.any (fun dp => decide (dp.1 = op.1))) then none
  else
    let vals := (raw.map (fun op => op.2.map (fun dp => dp.2))).flatten
    let max_distance := ndMax vals 0
    if max_distance = 0 then none
    else
      match ndMin vals none with
      | none => none
      | some min_distance =>
        let difference := max_distance - min_distance
        if difference = 0 then none
        else
          let out := raw.map (fun op =>
            (op.1, op.2.map (fun dp => (dp.1, 1 - (dp.2 - min_distance) / difference))))
          if out.any (fun op => op.2.any (fun dp => !(decide (0 ≤ dp.2 ∧ dp.2 ≤ 1)))) then none
          else some out

/-! ### Score curving (`main.py`) -/

/-- Embedding of `curve_data` (`main.py`): remap every score `s` to
`(s + diff) ** power - diff` with `diff = 1 - data[0].score` and
`power = math.log(1 - target_diff_percent, data[-1].score)`.
`data[-1]` / `data[0]` on an empty list raise `IndexError` (`none`);
`math.log(x, b)` is `log x / log b` and `**` is real exponentiation. -/
noncomputable def curve_data (target_diff_percent : ℝ) (data : List (String × ℝ)) :
    Option (List (String × ℝ)) :=
  match data.getLast?, data.head? with
  | some lastE, some headE =>
    let min_val := lastE.2
    let max_val := headE.2
    let diff := 1 - max_val
    let power := Real.log (1 - target_diff_percent) / Real.log min_val
    some (data.map (fun entry => (entry.1, Real.rpow (entry.2 + diff) power - diff)))
  | _, _ => none

/-! ### Concrete fixtures for the end-to-end demographic example -/

/-- Query profile for the demographic end-to-end example: age 0,
female, in district 0. -/
def queryUser : User := ⟨-1, 0, "F", ⟨0, "Altstadt", []⟩⟩

/-- Owner whose similarity to `queryUser` is `9/10` (same age, same
gender, district closeness `3/4`). -/
def owner1 : User := ⟨1, 0, "F", ⟨1, "Escher Wyss", [(0, 3/4)]⟩⟩

/-- Owner whose similarity to `queryUser` is `1/2` (same age, gender
mismatch, district closeness `0`). -/
def owner2 : User := ⟨2, 0, "M", ⟨2, "Langstrasse", [(0, 0)]⟩⟩

/-- Owner whose similarity to `queryUser` is `1/10` (age difference
100, gender mismatch, district closeness `0`). -/
def owner3 : User := ⟨3, 100, "M", ⟨3, "Seefeld", [(0, 0)]⟩⟩

/-- A dog graph whose only breed vertex `"Labrador"` is connected to
exactly the three owners above. -/
def labradorGraph : Graph Node :=
  Graph.runOps (Graph.empty Node)
    [.add_vertex (.breed "Labrador"),
     .add_vertex (.user owner1), .add_vertex (.user owner2), .add_vertex (.user owner3),
     .add_edge (.breed "Labrador") (.user owner1),
     .add_edge (.breed "Labrador") (.user owner2),
     .add_edge (.breed "Labrador") (.user owner3)]

/-- A dog graph with a single breed vertex and no owners. -/
def beagleGraph : Graph Node :=
  Graph.runOps (Graph.empty Node) [.add_vertex (.breed "Beagle")]

/-- Raw district distance table with values exactly `{10, 20, 30}` km. -/
def districtTable : List (District × List (District × ℚ)) :=
  [(⟨1, "Altstadt", []⟩, [(⟨2, "Zuriberg", []⟩, 10), (⟨3, "Sihlfeld", []⟩, 20)]),
   (⟨2, "Zuriberg", []⟩, [(⟨3, "Sihlfeld", []⟩, 30)])]

/-- Expected normalization of `districtTable`: `10 ↦ 1`, `20 ↦ 1/2`,
`30 ↦ 0`. -/
def districtTableOut : List (District × List (District × ℚ)) :=
  [(⟨1, "Altstadt", []⟩, [(⟨2, "Zuriberg", []⟩, 1), (⟨3, "Sihlfeld", []⟩, 1/2)]),
   (⟨2, "Zuriberg", []⟩, [(⟨3, "Sihlfeld", []⟩, 0)])]

/-! ### Helper lemmas -/

lemma lookup_mem {α β : Type} [BEq α] [LawfulBEq α] {l : List (α × β)} {k : α} {v : β}
    (h : l.lookup k = some v) : (k, v) ∈ l := by
  induction l with
  | nil => simp [List.lookup] at h
  | cons p rest ih =>
    obtain ⟨k1, v1⟩ := p
    by_cases hk : k = k1
    · have hb : (k == k1) = true := by simp [hk]
      simp only [List.lookup, hb] at h
      injection h with h2
      subst hk
      subst h2
      exact List.mem_cons_self _ _
    · have hb : (k == k1) = false := by simp [hk]
      simp only [List.lookup, hb] at h
      exact List.mem_cons_of_mem _ (ih h)

/-- The district sub-score produced by `District.get_distance` lies in
`[0, 1]` whenever every cached closeness value does. -/
lemma get_distance_mem_unit {s o : District} {d : ℚ}
    (hval : ∀ p ∈ s.district_distances, 0 ≤ p.2 ∧ p.2 ≤ 1)
    (hd : s.get_distance o = some d) : 0 ≤ d ∧ d ≤ 1 := by
  unfold District.get_distance at hd
  by_cases he : o = s
  · rw [if_pos he] at hd
    injection hd with h2
    subst h2
    norm_num
  · rw [if_neg he] at hd
    cases hl : s.district_distances.lookup o.district_id with
    | none => rw [hl] at hd; exact Option.noConfusion hd
    | some v =>
      rw [hl] at hd
      injection hd with h2
      subst h2
      exact hval _ (lookup_mem hl)

/-- If `compare` returns a score, that score passed the final range
assertion, so it lies in `[0, 1]`. -/
lemma compare_mem_unit {self other : User} {q : ℚ}
    (h : self.compare other = some q) : 0 ≤ q ∧ q ≤ 1 := by
  unfold User.compare at h
  repeat' first
    | exact Option.noConfusion h
    | split at h
  all_goals
    injection h with h2
    subst h2
    assumption

/-- C4 (counterexample): the claim "no internal range assertion fails
for any pair of non-negative ages" is false.  For ages `101` and `0`
(difference `101`), the age sub-score is `-(1/10000)·101² + 1 < 0`, so
the first assertion of `User.compare` fails (modelled as `none`), even
with matching genders and the same district. -/
theorem C4_counterexample :
    User.compare ⟨1, 101, "F", ⟨0, "Altstadt", []⟩⟩ ⟨2, 0, "F", ⟨0, "Altstadt", []⟩⟩
      = none := by
  norm_num [User.compare, age_score]

/-- C4 (amended): for every pair of owner profiles with gender in the
closed 3-value set, a populated district closeness map with values in
`[0, 1]`, and non-negative ages whose difference is at most 100,
`User.compare` returns a score in `[0, 1]` and none of its internal
range assertions fails. -/
theorem C4_compare_safe (self other : User) (d : ℚ)
    (hg1 : self.gender = "F" ∨ self.gender = "M" ∨ self.gender = "O")
    (hg2 : other.gender = "F" ∨ other.gender = "M" ∨ other.gender = "O")
    (hval : ∀ p ∈ self.district.district_distances, 0 ≤ p.2 ∧ p.2 ≤ 1)
    (hd : self.district.get_distance other.district = some d)
    (ha1 : 0 ≤ self.age) (ha2 : 0 ≤ other.age)
    (hdiff : |other.age - self.age| ≤ 100) :
    ∃ s, self.compare other = some s ∧ 0 ≤ s ∧ s ≤ 1 := by
  have hd01 : 0 ≤ d ∧ d ≤ 1 := get_distance_mem_unit hval hd
  have hD0 : (0:ℚ) ≤ ((|other.age - self.age| : Int) : ℚ) := by positivity
  have hD100 : ((|other.age - self.age| : Int) : ℚ) ≤ 100 := by exact_mod_cast hdiff
  have hA : 0 ≤ age_score self other ∧ age_score self other ≤ 1 := by
    unfold age_score
    constructor <;> nlinarith
  have hG : 0 ≤ gender_score self other ∧ gender_score self other ≤ 1 := by
    unfold gender_score
    split <;> norm_num
  have hS : 0 ≤ 2/5 * age_score self other + 1/5 * gender_score self other + 2/5 * d ∧
      2/5 * age_score self other + 1/5 * gender_score self other + 2/5 * d ≤ 1 := by
    constructor <;> linarith [hA.1, hA.2, hG.1, hG.2, hd01.1, hd01.2]
  unfold User.compare
  rw [if_pos hA, if_pos hG]
  simp only [hd]
  rw [if_pos hd01, if_pos hS]
  exact ⟨_, rfl, hS⟩

/-- C4 witness: the amended safety theorem applies to a concrete pair
of profiles with ages 30 and 40, genders F/M, and a district map with
closeness 1/2. -/
theorem C4_witness :
    ∃ s, User.compare ⟨1, 30, "F", ⟨1, "Industriequartier", [(0, 1/2)]⟩⟩
        ⟨2, 40, "M", ⟨0, "Altstadt", []⟩⟩ = some s ∧ 0 ≤ s ∧ s ≤ 1 :=
  C4_compare_safe _ _ (1/2) (Or.inl rfl) (Or.inr (Or.inl rfl))
    (by norm_num) (by norm_num [District.get_distance, List.lookup])
    (by decide) (by decide) (by decide)

/-- C5 (code bug): the neutral gender category `'O'` is *not* treated
as compatible with everything.  The source tests
`self.gender in [other.gender, 'o']` with a lowercase `'o'` that can
never equal a gender drawn from the documented set `{'F', 'M', 'O'}`,
and it ignores `other`'s gender entirely.  Hence an `'O'`-gendered
profile compared with an `'F'`-gendered one (same age, same district)
gets gender sub-score `1/2` and total score `9/10`, in either
direction, while an exact `'O'`/`'O'` match gets `1`; the claim says
all three cases should give the full match value `1`. -/
theorem C5_gender_neutral_bug :
    (gender_score ⟨1, 30, "O", ⟨0, "Altstadt", []⟩⟩ ⟨2, 30, "F", ⟨0, "Altstadt", []⟩⟩ = 1/2 ∧
     gender_score ⟨2, 30, "F", ⟨0, "Altstadt", []⟩⟩ ⟨1, 30, "O", ⟨0, "Altstadt", []⟩⟩ = 1/2 ∧
     gender_score ⟨1, 30, "O", ⟨0, "Altstadt", []⟩⟩ ⟨3, 30, "O", ⟨0, "Altstadt", []⟩⟩ = 1) ∧
    (User.compare ⟨1, 30, "O", ⟨0, "Altstadt", []⟩⟩ ⟨2, 30, "F", ⟨0, "Altstadt", []⟩⟩
        = some (9/10) ∧
     User.compare ⟨2, 30, "F", ⟨0, "Altstadt", []⟩⟩ ⟨1, 30, "O", ⟨0, "Altstadt", []⟩⟩
        = some (9/10) ∧
     User.compare ⟨1, 30, "O", ⟨0, "Altstadt", []⟩⟩ ⟨3, 30, "O", ⟨0, "Altstadt", []⟩⟩
        = some 1) ∧
    (9/10 : ℚ) ≠ 1 := by
  have hOF : (("O":String) = "F") = False := by simp
  have hOo : (("O":String) = "o") = False := by simp
  have hFO : (("F":String) = "O") = False := by simp
  have hFo : (("F":String) = "o") = False := by simp
  norm_num [User.compare, age_score, gender_score, District.get_distance,
    hOF, hOo, hFO, hFo]

/-- C7: inserting `["yes","no","Beagle"]` and `["yes","no","Pug"]` into
an empty decision tree and looking up `["yes","no"]` yields exactly
`["Beagle", "Pug"]`; and for every tree and every choice sequence
whose path is absent at some step of the walk, the lookup returns the
empty result rather than an error — in particular for the unseen path
`["yes","yes"]` on that tree. -/
theorem C7_decision_tree :
    (decision_tree_method
        (insert_sequence (insert_sequence (Tree.mk "" []) ["yes", "no", "Beagle"])
          ["yes", "no", "Pug"]) ["yes", "no"] = ["Beagle", "Pug"]) ∧
    (∀ (t : Tree) (choices : List String),
      pathAbsent t choices = true → decision_tree_method t choices = []) ∧
    pathAbsent
        (insert_sequence (insert_sequence (Tree.mk "" []) ["yes", "no", "Beagle"])
          ["yes", "no", "Pug"]) ["yes", "yes"] = true ∧
    decision_tree_method
        (insert_sequence (insert_sequence (Tree.mk "" []) ["yes", "no", "Beagle"])
          ["yes", "no", "Pug"]) ["yes", "yes"] = [] := by
  refine ⟨rfl, ?_, rfl, rfl⟩
  intro t choices
  induction choices generalizing t with
  | nil =>
    intro h
    exact absurd h (by simp [pathAbsent])
  | cons c rest ih =>
    intro h
    simp only [pathAbsent] at h
    simp only [decision_tree_method]
    cases hf : t.subtrees.find? (fun s => s.root == c) with
    | none => rfl
    | some sub =>
      rw [hf] at h
      exact ih sub h

/-- C7 witness: the absent-path clause applied to the concrete tree
and the absent sequence `["yes","maybe"]` (the second step finds no
matching child), giving the empty result. -/
theorem C7_witness :
    decision_tree_method
        (insert_sequence (insert_sequence (Tree.mk "" []) ["yes", "no", "Beagle"])
          ["yes", "no", "Pug"]) ["yes", "maybe"] = [] :=
  C7_decision_tree.2.1 _ ["yes", "maybe"] rfl

/-- C9: for a district distance table whose raw values are exactly
`{10, 20, 30}` km, `normalize_district_distances` maps 10 to closeness
1, 30 to 0 and 20 to 1/2 (the remapping `1 - (d - min)/(max - min)`),
and every produced value lies in `[0, 1]`. -/
theorem C9_district_normalization :
    normalize_district_distances districtTable = some districtTableOut ∧
    districtTableOut.all
      (fun op => op.2.all (fun dp => decide (0 ≤ dp.2 ∧ dp.2 ≤ 1))) = true := by
  constructor
  · norm_num [normalize_district_distances, ndMin, ndMax, max_def, min_def,
      districtTable, districtTableOut]
  · norm_num [districtTableOut, List.all_cons, List.all_nil]

/-- C1 (counterexample): for the graph in which breed `"Labrador"` is
connected to exactly 3 owners of similarities `9/10`, `1/2`, `1/10` to
the query profile, the smoothed score is `(9/10+1/2+1/10+7)/(3+10)`,
which differs from the claimed `(9/10+1/2+1/10+8)/(3+10)`: the code
adds 7, not 8, to the numerator. -/
lemma labradorGraph_eval : labradorGraph =
    { vertices := [.breed "Labrador", .user owner1, .user owner2, .user owner3],
      nbrs := [(.breed "Labrador", .user owner1), (.user owner1, .breed "Labrador"),
               (.breed "Labrador", .user owner2), (.user owner2, .breed "Labrador"),
               (.breed "Labrador", .user owner3), (.user owner3, .breed "Labrador")] } := by
  simp [labradorGraph, Graph.runOps, Graph.applyOp, Graph.add_vertex, Graph.add_edge,
    addPair, Graph.empty, owner1, owner2, owner3]

lemma labrador_neighbours :
    labradorGraph.get_neighbours (Node.breed "Labrador")
      = some [.user owner1, .user owner2, .user owner3] := by
  rw [labradorGraph_eval]
  simp [Graph.get_neighbours, owner1, owner2, owner3]

lemma owner1_compare : owner1.compare queryUser = some (9/10) := by
  norm_num [User.compare, age_score, gender_score, District.get_distance,
    List.lookup, owner1, queryUser]

lemma owner2_compare : owner2.compare queryUser = some (1/2) := by
  have hMF : (("M":String) = "F") = False := by simp
  have hMo : (("M":String) = "o") = False := by simp
  norm_num [User.compare, age_score, gender_score, District.get_distance,
    List.lookup, owner2, queryUser, hMF, hMo]

lemma owner3_compare : owner3.compare queryUser = some (1/10) := by
  have hMF : (("M":String) = "F") = False := by simp
  have hMo : (("M":String) = "o") = False := by simp
  norm_num [User.compare, age_score, gender_score, District.get_distance,
    List.lookup, owner3, queryUser, hMF, hMo]

lemma labrador_score :
    dogBreedScore queryUser labradorGraph "Labrador" = some (17/26) := by
  have hsims : ownerSimilarities queryUser [.user owner1, .user owner2, .user owner3]
      = some [9/10, 1/2, 1/10] := by
    simp [ownerSimilarities, owner1_compare, owner2_compare, owner3_compare]
  unfold dogBreedScore
  rw [labrador_neighbours]
  dsimp only
  rw [hsims]
  norm_num [List.sum_cons, List.sum_nil]

theorem C1_counterexample :
    dogBreedScore queryUser labradorGraph "Labrador"
      = some ((9/10 + 1/2 + 1/10 + 7) / (3 + 10)) ∧
    ((9/10 + 1/2 + 1/10 + 7) / (3 + 10) : ℚ) ≠ (9/10 + 1/2 + 1/10 + 8) / (3 + 10) := by
  constructor
  · rw [labrador_score]; norm_num
  · norm_num

/-- C1 (amended): in the 3-owner `"Labrador"` graph with similarities
`9/10`, `1/2`, `1/10`, the smoothed demographic score is
`(9/10 + 1/2 + 1/10 + 7)/(3 + 10)` — the smoothing adds 7 to the
numerator and 10 to the denominator — and the full recommender
returns exactly that entry. -/
theorem C1_smoothed_score :
    dogBreedScore queryUser labradorGraph "Labrador"
      = some ((9/10 + 1/2 + 1/10 + 7) / (3 + 10)) ∧
    get_demographic_recommendations queryUser 1 labradorGraph
      = some [("Labrador", (9/10 + 1/2 + 1/10 + 7) / (3 + 10))] := by
  constructor
  · rw [labrador_score]; norm_num
  · have hbreeds : dogBreedsOf labradorGraph = ["Labrador"] := by
      rw [labradorGraph_eval]
      simp [dogBreedsOf, Graph.get_all_nodes]
    unfold get_demographic_recommendations
    rw [hbreeds]
    unfold dogBreedScores
    rw [labrador_score]
    unfold dogBreedScores
    norm_num [extractTop, findMaxLoop, List.lookup]

/-- The neighbour-pair list is symmetric: this is the representation
invariant of `_Vertex` (`self in target.neighbours` for every
neighbour `target`). -/
def SymNbrs {α : Type} (g : Graph α) : Prop :=
  ∀ a b, (a, b) ∈ g.nbrs → (b, a) ∈ g.nbrs

lemma mem_addPair {α : Type} [DecidableEq α] {l : List (α × α)} {p q : α × α} :
    p ∈ addPair l q ↔ p = q ∨ p ∈ l := by
  unfold addPair
  split
  case isTrue hq =>
    constructor
    · exact Or.inr
    · rintro (rfl | hp)
      · exact hq
      · exact hp
  case isFalse hq =>
    simp [List.mem_append, or_comm]

lemma adjacent_iff {α : Type} [DecidableEq α] {g : Graph α} {a b : α} :
    g.adjacent a b = true ↔ a ∈ g.vertices ∧ b ∈ g.vertices ∧ (a, b) ∈ g.nbrs := by
  unfold Graph.adjacent
  split
  case isTrue hm =>
    simp only [List.any_eq_true, Bool.and_eq_true, decide_eq_true_eq]
    constructor
    · rintro ⟨p, hp, h1, h2⟩
      obtain ⟨x, y⟩ := p
      dsimp only at h1 h2
      subst h1
      subst h2
      exact ⟨hm.1, hm.2, hp⟩
    · rintro ⟨-, -, hab⟩
      exact ⟨(a, b), hab, rfl, rfl⟩
  case isFalse hm =>
    simp only [Bool.false_eq_true, false_iff]
    rintro ⟨h1, h2, -⟩
    exact hm ⟨h1, h2⟩

lemma adjacent_eq_symm {α : Type} [DecidableEq α] {g : Graph α} (hs : SymNbrs g)
    (a b : α) : g.adjacent a b = g.adjacent b a := by
  have hiff : (g.adjacent a b = true) ↔ (g.adjacent b a = true) := by
    rw [adjacent_iff, adjacent_iff]
    constructor
    · rintro ⟨h1, h2, h3⟩
      exact ⟨h2, h1, hs a b h3⟩
    · rintro ⟨h1, h2, h3⟩
      exact ⟨h2, h1, hs b a h3⟩
  cases h1 : g.adjacent a b <;> cases h2 : g.adjacent b a <;> simp_all

lemma symNbrs_applyOp {α : Type} [DecidableEq α] {g : Graph α} (hs : SymNbrs g)
    (op : GOp α) : SymNbrs (g.applyOp op) := by
  cases op with
  | add_vertex c =>
    show SymNbrs (g.add_vertex c)
    unfold Graph.add_vertex
    by_cases hc : c ∈ g.vertices
    · rw [if_pos hc]
      exact hs
    · rw [if_neg hc]
      exact hs
  | add_edge c d =>
    show SymNbrs ((g.add_edge c d).getD g)
    unfold Graph.add_edge
    by_cases hm : c ∈ g.vertices ∧ d ∈ g.vertices
    case pos =>
      rw [if_pos hm, Option.getD_some]
      intro x y hxy
      rcases mem_addPair.1 hxy with he | he2
      · injection he with hx hy
        subst hx
        subst hy
        exact mem_addPair.2 (Or.inr (mem_addPair.2 (Or.inl rfl)))
      · rcases mem_addPair.1 he2 with he3 | he4
        · injection he3 with hx hy
          subst hx
          subst hy
          exact mem_addPair.2 (Or.inl rfl)
        · exact mem_addPair.2 (Or.inr (mem_addPair.2 (Or.inr (hs x y he4))))
    case neg =>
      rw [if_neg hm]
      exact hs

lemma symNbrs_runOps {α : Type} [DecidableEq α] {g : Graph α} (hs : SymNbrs g)
    (ops : List (GOp α)) : SymNbrs (g.runOps ops) := by
  induction ops generalizing g with
  | nil => exact hs
  | cons op ops ih => exact ih (symNbrs_applyOp hs op)

lemma not_mem_nbrs_applyOp {α : Type} [DecidableEq α] {g : Graph α} {a b : α} {op : GOp α}
    (hna : (a, b) ∉ g.nbrs) (hnb : (b, a) ∉ g.nbrs)
    (h1 : op ≠ GOp.add_edge a b) (h2 : op ≠ GOp.add_edge b a) :
    (a, b) ∉ (g.applyOp op).nbrs ∧ (b, a) ∉ (g.applyOp op).nbrs := by
  cases op with
  | add_vertex c =>
    show (a, b) ∉ (g.add_vertex c).nbrs ∧ (b, a) ∉ (g.add_vertex c).nbrs
    unfold Graph.add_vertex
    by_cases hc : c ∈ g.vertices
    · rw [if_pos hc]
      exact ⟨hna, hnb⟩
    · rw [if_neg hc]
      exact ⟨hna, hnb⟩
  | add_edge c d =>
    show (a, b) ∉ ((g.add_edge c d).getD g).nbrs ∧ (b, a) ∉ ((g.add_edge c d).getD g).nbrs
    unfold Graph.add_edge
    by_cases hm : c ∈ g.vertices ∧ d ∈ g.vertices
    case pos =>
      rw [if_pos hm, Option.getD_some]
      constructor
      · intro hmem
        rcases mem_addPair.1 hmem with he | he2
        · injection he with hx hy
          subst hx
          subst hy
          exact h2 rfl
        · rcases mem_addPair.1 he2 with he3 | he4
          · injection he3 with hx hy
            subst hx
            subst hy
            exact h1 rfl
          · exact hna he4
      · intro hmem
        rcases mem_addPair.1 hmem with he | he2
        · injection he with hx hy
          subst hx
          subst hy
          exact h1 rfl
        · rcases mem_addPair.1 he2 with he3 | he4
          · injection he3 with hx hy
            subst hx
            subst hy
            exact h2 rfl
          · exact hnb he4
    case neg =>
      rw [if_neg hm]
      exact ⟨hna, hnb⟩

lemma not_mem_nbrs_runOps {α : Type} [DecidableEq α] {g : Graph α} {a b : α}
    (hna : (a, b) ∉ g.nbrs) (hnb : (b, a) ∉ g.nbrs) (ops : List (GOp α))
    (hops : ∀ op ∈ ops, op ≠ GOp.add_edge a b ∧ op ≠ GOp.add_edge b a) :
    (a, b) ∉ (g.runOps ops).nbrs ∧ (b, a) ∉ (g.runOps ops).nbrs := by
  induction ops generalizing g with
  | nil => exact ⟨hna, hnb⟩
  | cons op ops ih =>
    have hop := hops op (List.mem_cons_self _ _)
    have hstep := not_mem_nbrs_applyOp hna hnb hop.1 hop.2
    exact ih hstep.1 hstep.2 (fun o ho => hops o (List.mem_cons_of_mem _ ho))

/-- C8: in any graph built from the empty graph by a sequence of
`add_vertex` / `add_edge` operations, adjacency is symmetric
(`adjacent(a,b) == adjacent(b,a)` for all `a`, `b`); for a pair of
distinct items, both directions are `False` as long as no
`add_edge(a,b)` or `add_edge(b,a)` has been performed; and once
`add_edge(a,b)` is performed on a graph that has `a` and `b` as
vertices, both directions are `True`. -/
theorem C8_adjacency_symmetric {α : Type} [DecidableEq α] (ops : List (GOp α)) (a b : α)
    (hab : a ≠ b) :
    ((Graph.runOps (Graph.empty α) ops).adjacent a b
        = (Graph.runOps (Graph.empty α) ops).adjacent b a) ∧
    ((∀ op ∈ ops, op ≠ GOp.add_edge a b ∧ op ≠ GOp.add_edge b a) →
      (Graph.runOps (Graph.empty α) ops).adjacent a b = false ∧
      (Graph.runOps (Graph.empty α) ops).adjacent b a = false) ∧
    (a ∈ (Graph.runOps (Graph.empty α) ops).vertices →
     b ∈ (Graph.runOps (Graph.empty α) ops).vertices →
      ((Graph.runOps (Graph.empty α) ops).applyOp (GOp.add_edge a b)).adjacent a b = true ∧
      ((Graph.runOps (Graph.empty α) ops).applyOp (GOp.add_edge a b)).adjacent b a = true) := by
  have hsym : SymNbrs (Graph.runOps (Graph.empty α) ops) :=
    symNbrs_runOps (fun x y hxy => absurd hxy (List.not_mem_nil _)) ops
  refine ⟨adjacent_eq_symm hsym a b, ?_, ?_⟩
  · intro hops
    have hne := not_mem_nbrs_runOps (g := Graph.empty α)
      (List.not_mem_nil _) (List.not_mem_nil _) ops hops
    constructor
    · cases hadj : (Graph.runOps (Graph.empty α) ops).adjacent a b with
      | false => rfl
      | true => exact absurd (adjacent_iff.1 hadj).2.2 hne.1
    · cases hadj : (Graph.runOps (Graph.empty α) ops).adjacent b a with
      | false => rfl
      | true => exact absurd (adjacent_iff.1 hadj).2.2 hne.2
  · intro ha hb
    have hstep : (Graph.runOps (Graph.empty α) ops).applyOp (GOp.add_edge a b)
        = { vertices := (Graph.runOps (Graph.empty α) ops).vertices,
            nbrs := addPair (addPair (Graph.runOps (Graph.empty α) ops).nbrs (a, b)) (b, a) } := by
      show ((Graph.runOps (Graph.empty α) ops).add_edge a b).getD _ = _
      unfold Graph.add_edge
      rw [if_pos ⟨ha, hb⟩, Option.getD_some]
    rw [hstep]
    constructor
    · exact adjacent_iff.2 ⟨ha, hb, mem_addPair.2 (Or.inr (mem_addPair.2 (Or.inl rfl)))⟩
    · exact adjacent_iff.2 ⟨hb, ha, mem_addPair.2 (Or.inl rfl)⟩

/-- C8 witness: the symmetry theorem applied to the concrete operation
sequence that adds vertices `0` and `1` to the empty graph over `ℕ`:
both adjacency directions are `False` before `add_edge 0 1` and both
are `True` after it. -/
theorem C8_witness :
    (Graph.runOps (Graph.empty ℕ) [GOp.add_vertex 0, GOp.add_vertex 1]).adjacent 0 1
        = false ∧
    (Graph.runOps (Graph.empty ℕ) [GOp.add_vertex 0, GOp.add_vertex 1]).adjacent 1 0
        = false ∧
    ((Graph.runOps (Graph.empty ℕ) [GOp.add_vertex 0, GOp.add_vertex 1]).applyOp
        (GOp.add_edge 0 1)).adjacent 0 1 = true ∧
    ((Graph.runOps (Graph.empty ℕ) [GOp.add_vertex 0, GOp.add_vertex 1]).applyOp
        (GOp.add_edge 0 1)).adjacent 1 0 = true := by
  have h := C8_adjacency_symmetric [GOp.add_vertex 0, GOp.add_vertex 1] 0 1
    (by decide)
  exact ⟨(h.2.1 (by decide)).1, (h.2.1 (by decide)).2,
         (h.2.2 (by decide) (by decide)).1, (h.2.2 (by decide) (by decide)).2⟩

lemma scanMinMax_bounds (l : List (String × Int)) :
    ∀ (mn mx : Option Int) (m M : Int),
      scanMinMax l mn mx = (some m, some M) →
      (∀ p ∈ l, m ≤ p.2 ∧ p.2 ≤ M) ∧
      (∀ a, mn = some a → m ≤ a) ∧ (∀ a, mx = some a → a ≤ M) := by
  induction l with
  | nil =>
    intro mn mx m M h
    simp only [scanMinMax, Prod.mk.injEq] at h
    refine ⟨fun p hp => absurd hp (List.not_mem_nil _), ?_, ?_⟩
    · intro a ha
      rw [h.1] at ha
      injection ha with ha2
      omega
    · intro a ha
      rw [h.2] at ha
      injection ha with ha2
      omega
  | cons p rest ih =>
    intro mn mx m M h
    simp only [scanMinMax] at h
    obtain ⟨hrest, hmn, hmx⟩ := ih _ _ _ _ h
    refine ⟨?_, ?_, ?_⟩
    · intro q hq
      rcases List.mem_cons.1 hq with rfl | hq2
      · constructor
        · cases mn with
          | none => exact hmn _ rfl
          | some m0 =>
            by_cases hlt : q.2 < m0
            · exact hmn _ (by simp [hlt])
            · have h1 := hmn m0 (by simp [hlt])
              omega
        · cases mx with
          | none => exact hmx _ rfl
          | some M0 =>
            by_cases hgt : q.2 > M0
            · exact hmx _ (by simp [hgt])
            · have h1 := hmx M0 (by simp [hgt])
              omega
      · exact hrest q hq2
    · intro a ha
      cases mn with
      | none => exact Option.noConfusion ha
      | some m0 =>
        injection ha with ha2
        subst ha2
        by_cases hlt : p.2 < m0
        · have h1 := hmn p.2 (by simp [hlt])
          omega
        · exact hmn m0 (by simp [hlt])
    · intro a ha
      cases mx with
      | none => exact Option.noConfusion ha
      | some M0 =>
        injection ha with ha2
        subst ha2
        by_cases hgt : p.2 > M0
        · have h1 := hmx p.2 (by simp [hgt])
          omega
        · exact hmx M0 (by simp [hgt])

lemma scanMinMax_attained (l : List (String × Int)) :
    ∀ (mn mx : Option Int) (m M : Int),
      scanMinMax l mn mx = (some m, some M) →
      ((∃ p ∈ l, p.2 = m) ∨ mn = some m) ∧ ((∃ p ∈ l, p.2 = M) ∨ mx = some M) := by
  induction l with
  | nil =>
    intro mn mx m M h
    simp only [scanMinMax, Prod.mk.injEq] at h
    exact ⟨Or.inr h.1, Or.inr h.2⟩
  | cons p rest ih =>
    intro mn mx m M h
    simp only [scanMinMax] at h
    obtain ⟨h1, h2⟩ := ih _ _ _ _ h
    constructor
    · rcases h1 with ⟨q, hq, hqm⟩ | heq
      · exact Or.inl ⟨q, List.mem_cons_of_mem _ hq, hqm⟩
      · cases mn with
        | none =>
          exact Or.inl ⟨p, List.mem_cons_self _ _, Option.some.inj heq⟩
        | some m0 =>
          have heq2 : (if p.2 < m0 then (some p.2 : Option Int) else some m0) = some m := heq
          by_cases hlt : p.2 < m0
          · rw [if_pos hlt] at heq2
            exact Or.inl ⟨p, List.mem_cons_self _ _, Option.some.inj heq2⟩
          · rw [if_neg hlt] at heq2
            exact Or.inr heq2
    · rcases h2 with ⟨q, hq, hqm⟩ | heq
      · exact Or.inl ⟨q, List.mem_cons_of_mem _ hq, hqm⟩
      · cases mx with
        | none =>
          exact Or.inl ⟨p, List.mem_cons_self _ _, Option.some.inj heq⟩
        | some M0 =>
          have heq2 : (if p.2 > M0 then (some p.2 : Option Int) else some M0) = some M := heq
          by_cases hgt : p.2 > M0
          · rw [if_pos hgt] at heq2
            exact Or.inl ⟨p, List.mem_cons_self _ _, Option.some.inj heq2⟩
          · rw [if_neg hgt] at heq2
            exact Or.inr heq2

lemma scanMinMax_some (l : List (String × Int)) :
    ∀ (m0 M0 : Int), ∃ m M, scanMinMax l (some m0) (some M0) = (some m, some M) := by
  induction l with
  | nil => exact fun m0 M0 => ⟨m0, M0, rfl⟩
  | cons p rest ih =>
    intro m0 M0
    obtain ⟨m, M, hm⟩ := ih (if p.2 < m0 then p.2 else m0) (if p.2 > M0 then p.2 else M0)
    refine ⟨m, M, ?_⟩
    rw [scanMinMax]
    show scanMinMax rest (if p.2 < m0 then some p.2 else some m0)
        (if p.2 > M0 then some p.2 else some M0) = (some m, some M)
    rw [← apply_ite some, ← apply_ite some]
    exact hm

lemma scanMinMax_nonempty (l : List (String × Int)) (hne : l ≠ []) :
    ∃ m M, scanMinMax l none none = (some m, some M) := by
  cases l with
  | nil => exact absurd rfl hne
  | cons p rest =>
    rw [scanMinMax]
    exact scanMinMax_some rest p.2 p.2

/-- When the raw spread is positive, the padded min-max normalization
succeeds and maps raw score `s` to `(s - (3m - 2M)) / (4(M - m))`
(the let-bound `min_score`/`max_score` of the source evaluate to
`3m - 2M` and `2M - m`). -/
lemma normalize_spread {scores : List (String × Int)} {m M : Int}
    (hscan : scanMinMax scores none none = (some m, some M)) (hlt : m < M) :
    normalize_preference_recommendations scores
      = some (scores.map (fun p =>
          (p.1, ((p.2 : ℚ) - (3 * (m:ℚ) - 2 * (M:ℚ))) / (4 * ((M:ℚ) - (m:ℚ)))))) := by
  unfold normalize_preference_recommendations
  rw [hscan]
  dsimp only
  split
  case isTrue h => exact absurd h (by omega)
  case isFalse h =>
    congr 1
    apply List.map_congr_left
    intro p hp
    simp only [Prod.mk.injEq, true_and]
    push_cast
    ring_nf

/-- C2 (counterexample): the claim promises no division by zero on
single-element (zero-spread) inputs, but on `[("Beagle", 5)]` the
padded range `max1 - min1` is `0` and the division raises
`ZeroDivisionError` (modelled `none`). -/
theorem C2_counterexample :
    normalize_preference_recommendations [("Beagle", 5)] = none := rfl

/-- C2 (amended): for every input list containing two entries with
distinct raw scores, `normalize_preference_recommendations` succeeds,
every output score is strictly inside `(0, 1)`, and the relative order
of scores is preserved position by position.  (On zero-spread inputs
the function instead fails with a division by zero.) -/
theorem C2_normalization (scores : List (String × Int)) (i j : Nat)
    (pi0 pj0 : String × Int)
    (hi : scores.get? i = some pi0) (hj : scores.get? j = some pj0)
    (hne : pi0.2 ≠ pj0.2) :
    ∃ out, normalize_preference_recommendations scores = some out ∧
      out.length = scores.length ∧
      (∀ p ∈ out, 0 < p.2 ∧ p.2 < 1) ∧
      (∀ k l pk pl ok ol, scores.get? k = some pk → scores.get? l = some pl →
        out.get? k = some ok → out.get? l = some ol →
        (pk.2 ≤ pl.2 ↔ ok.2 ≤ ol.2)) := by
  have hne' : scores ≠ [] := by
    rintro rfl
    simp at hi
  obtain ⟨m, M, hscan⟩ := scanMinMax_nonempty scores hne'
  have hbounds := (scanMinMax_bounds scores none none m M hscan).1
  have hmM : m < M := by
    have h1 := hbounds _ (List.get?_mem hi)
    have h2 := hbounds _ (List.get?_mem hj)
    omega
  have hq : (m:ℚ) < (M:ℚ) := by exact_mod_cast hmM
  have hD : (0:ℚ) < 4 * ((M:ℚ) - m) := by linarith
  rw [normalize_spread hscan hmM]
  refine ⟨_, rfl, List.length_map _ _, ?_, ?_⟩
  · intro p hp
    obtain ⟨q, hq', rfl⟩ := List.mem_map.1 hp
    obtain ⟨hq1, hq2⟩ := hbounds q hq'
    have hc1 : ((m:ℚ)) ≤ (q.2:ℚ) := by exact_mod_cast hq1
    have hc2 : ((q.2:ℚ)) ≤ (M:ℚ) := by exact_mod_cast hq2
    dsimp only
    constructor
    · apply div_pos
      · linarith
      · linarith
    · rw [div_lt_one hD]
      linarith
  · intro k l pk pl ok ol hk hl hok hol
    rw [List.get?_map, hk] at hok
    rw [List.get?_map, hl] at hol
    injection hok with hok2
    injection hol with hol2
    subst hok2
    subst hol2
    dsimp only
    rw [div_le_div_right hD, sub_le_sub_iff_right, Int.cast_le]

/-- C2 witness: the amended normalization theorem applied to the
two-element list `[("Beagle", 0), ("Pug", 4)]`. -/
theorem C2_witness :
    ∃ out, normalize_preference_recommendations [("Beagle", 0), ("Pug", 4)] = some out ∧
      out.length = ([("Beagle", 0), ("Pug", 4)] : List (String × Int)).length ∧
      (∀ p ∈ out, 0 < p.2 ∧ p.2 < 1) ∧
      (∀ k l pk pl ok ol,
        ([("Beagle", 0), ("Pug", 4)] : List (String × Int)).get? k = some pk →
        ([("Beagle", 0), ("Pug", 4)] : List (String × Int)).get? l = some pl →
        out.get? k = some ok → out.get? l = some ol →
        (pk.2 ≤ pl.2 ↔ ok.2 ≤ ol.2)) :=
  C2_normalization [("Beagle", 0), ("Pug", 4)] 0 1 ("Beagle", 0) ("Pug", 4)
    rfl rfl (by decide)

/-- C10: for every input list with at least two distinct raw scores,
the normalizer maps every entry achieving the scanned maximum to
exactly `3/4` and every entry achieving the scanned minimum to exactly
`1/2`, and all normalized scores lie in `[1/2, 3/4]` — they never
approach `0` or `1`.  The scanned minimum/maximum are attained in the
list, so they are the true min/max of the raw scores. -/
theorem C10_normalized_band (scores : List (String × Int)) (i j : Nat)
    (pi0 pj0 : String × Int)
    (hi : scores.get? i = some pi0) (hj : scores.get? j = some pj0)
    (hne : pi0.2 ≠ pj0.2) :
    ∃ m M out, scanMinMax scores none none = (some m, some M) ∧
      (∃ p ∈ scores, p.2 = m) ∧ (∃ p ∈ scores, p.2 = M) ∧
      (∀ p ∈ scores, m ≤ p.2 ∧ p.2 ≤ M) ∧
      normalize_preference_recommendations scores = some out ∧
      (∀ k pk ok, scores.get? k = some pk → out.get? k = some ok →
        (pk.2 = M → ok.2 = 3/4) ∧ (pk.2 = m → ok.2 = 1/2) ∧
        1/2 ≤ ok.2 ∧ ok.2 ≤ 3/4) := by
  have hne' : scores ≠ [] := by
    rintro rfl
    simp at hi
  obtain ⟨m, M, hscan⟩ := scanMinMax_nonempty scores hne'
  have hbounds := (scanMinMax_bounds scores none none m M hscan).1
  have hmM : m < M := by
    have h1 := hbounds pi0 (List.get?_mem hi)
    have h2 := hbounds pj0 (List.get?_mem hj)
    omega
  have hatt := scanMinMax_attained scores none none m M hscan
  have hq : (m:ℚ) < (M:ℚ) := by exact_mod_cast hmM
  have hD : (0:ℚ) < 4 * ((M:ℚ) - m) := by linarith
  have hattm : ∃ p ∈ scores, p.2 = m := by
    rcases hatt.1 with h | h
    · exact h
    · exact Option.noConfusion h
  have hattM : ∃ p ∈ scores, p.2 = M := by
    rcases hatt.2 with h | h
    · exact h
    · exact Option.noConfusion h
  refine ⟨m, M, _, hscan, hattm, hattM, hbounds, normalize_spread hscan hmM, ?_⟩
  intro k pk ok hk hok
  rw [List.get?_map, hk] at hok
  injection hok with hok2
  subst hok2
  obtain ⟨hb1, hb2⟩ := hbounds _ (List.get?_mem hk)
  have hc1 : ((m:ℚ)) ≤ (pk.2:ℚ) := by exact_mod_cast hb1
  have hc2 : ((pk.2:ℚ)) ≤ (M:ℚ) := by exact_mod_cast hb2
  dsimp only
  refine ⟨?_, ?_, ?_, ?_⟩
  · intro hpk
    have hpkq : ((pk.2:ℚ)) = (M:ℚ) := by exact_mod_cast hpk
    rw [hpkq, div_eq_iff (ne_of_gt hD)]
    ring
  · intro hpk
    have hpkq : ((pk.2:ℚ)) = (m:ℚ) := by exact_mod_cast hpk
    rw [hpkq, div_eq_iff (ne_of_gt hD)]
    ring
  · rw [le_div_iff hD]
    linarith
  · rw [div_le_iff hD]
    linarith

/-- C10 witness: the band theorem applied to the two-element list
`[("Beagle", 0), ("Pug", 4)]` (scores `0` and `4` are distinct). -/
theorem C10_witness :
    ∃ m M out,
      scanMinMax [("Beagle", 0), ("Pug", 4)] none none = (some m, some M) ∧
      (∃ p ∈ ([("Beagle", 0), ("Pug", 4)] : List (String × Int)), p.2 = m) ∧
      (∃ p ∈ ([("Beagle", 0), ("Pug", 4)] : List (String × Int)), p.2 = M) ∧
      (∀ p ∈ ([("Beagle", 0), ("Pug", 4)] : List (String × Int)), m ≤ p.2 ∧ p.2 ≤ M) ∧
      normalize_preference_recommendations [("Beagle", 0), ("Pug", 4)] = some out ∧
      (∀ k pk ok, ([("Beagle", 0), ("Pug", 4)] : List (String × Int)).get? k = some pk →
        out.get? k = some ok →
        (pk.2 = M → ok.2 = 3/4) ∧ (pk.2 = m → ok.2 = 1/2) ∧
        1/2 ≤ ok.2 ∧ ok.2 ≤ 3/4) :=
  C10_normalized_band [("Beagle", 0), ("Pug", 4)] 0 1 ("Beagle", 0) ("Pug", 4)
    rfl rfl (by decide)

lemma findMaxLoop_ge (l : List (String × ℚ)) :
    ∀ (ms : ℚ) (mb : String),
      ms ≤ (findMaxLoop l ms mb).1 ∧ ∀ p ∈ l, p.2 ≤ (findMaxLoop l ms mb).1 := by
  induction l with
  | nil =>
    intro ms mb
    exact ⟨le_refl _, fun p hp => absurd hp (List.not_mem_nil _)⟩
  | cons q rest ih =>
    intro ms mb
    obtain ⟨b, s⟩ := q
    simp only [findMaxLoop]
    by_cases hgt : s > ms
    · rw [if_pos hgt]
      obtain ⟨h1, h2⟩ := ih s b
      refine ⟨le_of_lt (lt_of_lt_of_le hgt h1), ?_⟩
      intro p hp
      rcases List.mem_cons.1 hp with rfl | hp2
      · exact h1
      · exact h2 p hp2
    · rw [if_neg hgt]
      obtain ⟨h1, h2⟩ := ih ms mb
      refine ⟨h1, ?_⟩
      intro p hp
      rcases List.mem_cons.1 hp with rfl | hp2
      · exact le_trans (not_lt.1 hgt) h1
      · exact h2 p hp2

lemma findMaxLoop_mem (l : List (String × ℚ)) :
    ∀ (ms : ℚ) (mb : String),
      findMaxLoop l ms mb = (ms, mb) ∨ ∃ p ∈ l, findMaxLoop l ms mb = (p.2, p.1) := by
  induction l with
  | nil => exact fun ms mb => Or.inl rfl
  | cons q rest ih =>
    intro ms mb
    obtain ⟨b, s⟩ := q
    simp only [findMaxLoop]
    by_cases hgt : s > ms
    · rw [if_pos hgt]
      rcases ih s b with h | ⟨p, hp, he⟩
      · exact Or.inr ⟨(b, s), List.mem_cons_self _ _, h⟩
      · exact Or.inr ⟨p, List.mem_cons_of_mem _ hp, he⟩
    · rw [if_neg hgt]
      rcases ih ms mb with h | ⟨p, hp, he⟩
      · exact Or.inl h
      · exact Or.inr ⟨p, List.mem_cons_of_mem _ hp, he⟩

lemma findMaxLoop_found {l : List (String × ℚ)} {ms : ℚ} (mb : String)
    (hex : ∃ p ∈ l, ms < p.2) :
    ∃ p ∈ l, findMaxLoop l ms mb = (p.2, p.1) := by
  rcases findMaxLoop_mem l ms mb with h | h
  · obtain ⟨p, hp, hlt⟩ := hex
    have hle := (findMaxLoop_ge l ms mb).2 p hp
    rw [h] at hle
    exact absurd (lt_of_lt_of_le hlt hle) (lt_irrefl ms)
  · exact h

lemma lookup_some_of_mem {l : List (String × ℚ)} {b : String} {s : ℚ}
    (h : (b, s) ∈ l) : ∃ v, l.lookup b = some v := by
  induction l with
  | nil => exact absurd h (List.not_mem_nil _)
  | cons q rest ih =>
    obtain ⟨b', v'⟩ := q
    by_cases hb : b = b'
    · exact ⟨v', by simp [List.lookup, hb]⟩
    · rcases List.mem_cons.1 h with he | h2
      · injection he with he1 he2
        exact absurd he1 hb
      · obtain ⟨v, hv⟩ := ih h2
        have hbb : (b == b') = false := by simp [hb]
        exact ⟨v, by simp [List.lookup, hbb, hv]⟩

lemma filter_ne_length {l : List (String × ℚ)} {b : String} {s : ℚ}
    (hnd : (l.map Prod.fst).Nodup) (hmem : (b, s) ∈ l) :
    (l.filter (fun p => p.1 != b)).length = l.length - 1 := by
  induction l with
  | nil => exact absurd hmem (List.not_mem_nil _)
  | cons q rest ih =>
    rw [List.map_cons, List.nodup_cons] at hnd
    rcases List.mem_cons.1 hmem with rfl | h2
    · have hq : (((b, s).1 != b) = false) := by simp
      have hrest : rest.filter (fun p => p.1 != b) = rest := by
        apply List.filter_eq_self.2
        intro p hp
        simp only [bne_iff_ne, ne_eq, decide_eq_true_eq]
        intro hpb
        apply hnd.1
        show b ∈ rest.map Prod.fst
        rw [← hpb]
        exact List.mem_map_of_mem Prod.fst hp
      simp [List.filter_cons, hq, hrest]
    · have hq : ((q.1 != b) = true) := by
        simp only [bne_iff_ne, ne_eq]
        intro he
        apply hnd.1
        rw [he]
        exact List.mem_map_of_mem Prod.fst h2
      have hlen := ih hnd.2 h2
      have hpos : 0 < rest.length := List.length_pos.2 (List.ne_nil_of_mem h2)
      simp only [List.filter_cons, hq, if_true, List.length_cons, hlen]
      omega

lemma filter_keys_nodup {l : List (String × ℚ)} {b : String}
    (hnd : (l.map Prod.fst).Nodup) :
    ((l.filter (fun p => p.1 != b)).map Prod.fst).Nodup :=
  List.Nodup.sublist (List.Sublist.map Prod.fst (List.filter_sublist l)) hnd

lemma extractTop_length :
    ∀ (n : Nat) (scores : List (String × ℚ)),
      (scores.map Prod.fst).Nodup → (∀ p ∈ scores, (-1:ℚ) < p.2) →
      n ≤ scores.length →
      ∃ out, extractTop n scores = some out ∧ out.length = n := by
  intro n
  induction n with
  | zero => exact fun scores _ _ _ => ⟨[], rfl, rfl⟩
  | succ n ih =>
    intro scores hnd hpos hlen
    have hne : scores ≠ [] := by
      intro he
      rw [he] at hlen
      simp at hlen
    obtain ⟨q, hq⟩ := List.exists_mem_of_ne_nil scores hne
    obtain ⟨p, hp, hfm⟩ := findMaxLoop_found "" ⟨q, hq, hpos q hq⟩
    have hp' : (p.1, p.2) ∈ scores := hp
    obtain ⟨v, hv⟩ := lookup_some_of_mem hp'
    have hflen : (scores.filter (fun r => r.1 != p.1)).length = scores.length - 1 :=
      filter_ne_length hnd hp'
    obtain ⟨out, hout, holen⟩ := ih (scores.filter (fun r => r.1 != p.1))
      (filter_keys_nodup hnd)
      (fun r hr => hpos r (List.mem_of_mem_filter hr))
      (by omega)
    refine ⟨(p.1, v) :: out, ?_, by simp [holen]⟩
    simp only [extractTop]
    rw [hfm]
    dsimp only
    rw [hv, hout]

/-- If every owner comparison succeeds, each similarity lies in `[0, 1]`. -/
lemma ownerSimilarities_bounds {input_user : User} :
    ∀ {owners : List Node} {sims : List ℚ},
      ownerSimilarities input_user owners = some sims →
      ∀ q ∈ sims, 0 ≤ q ∧ q ≤ 1 := by
  intro owners
  induction owners with
  | nil =>
    intro sims h q hq
    simp only [ownerSimilarities] at h
    injection h with h2
    subst h2
    exact absurd hq (List.not_mem_nil _)
  | cons n rest ih =>
    intro sims h q hq
    simp only [ownerSimilarities] at h
    cases n with
    | breed name => exact Option.noConfusion h
    | user u =>
      dsimp only at h
      cases hc : u.compare input_user with
      | none =>
        rw [hc] at h
        exact Option.noConfusion h
      | some q0 =>
        rw [hc] at h
        dsimp only at h
        cases hr : ownerSimilarities input_user rest with
        | none =>
          rw [hr] at h
          exact Option.noConfusion h
        | some qs =>
          rw [hr] at h
          injection h with h2
          subst h2
          rcases List.mem_cons.1 hq with rfl | hq2
          · exact compare_mem_unit hc
          · exact ih hr q hq2

/-- A successfully computed smoothed breed score is strictly positive
(hence greater than the `-1` sentinel of the extraction loop). -/
lemma dogBreedScore_pos {input_user : User} {g : Graph Node} {b : String} {s : ℚ}
    (h : dogBreedScore input_user g b = some s) : 0 < s := by
  unfold dogBreedScore at h
  cases hnb : g.get_neighbours (Node.breed b) with
  | none =>
    rw [hnb] at h
    exact Option.noConfusion h
  | some owners =>
    rw [hnb] at h
    dsimp only at h
    cases hsims : ownerSimilarities input_user owners with
    | none =>
      rw [hsims] at h
      exact Option.noConfusion h
    | some sims =>
      rw [hsims] at h
      injection h with h2
      subst h2
      have hb := ownerSimilarities_bounds hsims
      have hsum : 0 ≤ sims.sum := List.sum_nonneg (fun q hq => (hb q hq).1)
      have hden : (0:ℚ) < (sims.length : ℚ) + 10 := by positivity
      exact div_pos (by linarith) hden

lemma dogBreedScores_spec {input_user : User} {g : Graph Node} :
    ∀ {bs : List String} {scores : List (String × ℚ)},
      dogBreedScores input_user g bs = some scores →
      scores.map Prod.fst = bs ∧
      ∀ p ∈ scores, dogBreedScore input_user g p.1 = some p.2 := by
  intro bs
  induction bs with
  | nil =>
    intro scores h
    simp only [dogBreedScores] at h
    injection h with h2
    subst h2
    exact ⟨rfl, fun p hp => absurd hp (List.not_mem_nil _)⟩
  | cons b rest ih =>
    intro scores h
    simp only [dogBreedScores] at h
    cases hd : dogBreedScore input_user g b with
    | none =>
      rw [hd] at h
      exact Option.noConfusion h
    | some s =>
      rw [hd] at h
      dsimp only at h
      cases hr : dogBreedScores input_user g rest with
      | none =>
        rw [hr] at h
        exact Option.noConfusion h
      | some l =>
        rw [hr] at h
        injection h with h2
        subst h2
        obtain ⟨hmap, hmem⟩ := ih hr
        refine ⟨by simp [hmap], ?_⟩
        intro p hp
        rcases List.mem_cons.1 hp with rfl | hp2
        · exact hd
        · exact hmem p hp2

lemma dogBreedsOf_nodup {g : Graph Node} (h : g.vertices.Nodup) :
    (dogBreedsOf g).Nodup := by
  apply List.Nodup.filterMap ?_ h
  intro a a' b hb hb'
  cases a with
  | user u => exact absurd hb (by simp)
  | breed nm =>
    cases a' with
    | user u' => exact absurd hb' (by simp)
    | breed nm' =>
      simp only [Option.mem_def, Option.some.injEq] at hb hb'
      rw [hb, hb']

/-- C3 (counterexample): on a graph with no breed vertices (fewer than
`K = 1` breeds), `get_demographic_recommendations` does not return
fewer results — the extraction loop's dictionary subscript
`dog_breed_score[max_breed]` raises `KeyError` (modelled `none`). -/
theorem C3_counterexample :
    get_demographic_recommendations queryUser 1 (Graph.empty Node) = none := rfl

/-- C3 (amended): whenever the graph has at least `K` breed vertices
(vertex keys are unique, as in the source's dictionary) and every
owner comparison succeeds, `get_demographic_recommendations` returns
normally with exactly `K` entries — so never more than `K`.  When
fewer than `K` breeds exist it instead fails with a `KeyError` rather
than returning a shorter list. -/
theorem C3_returns_limit (input_user : User) (limit : Nat) (g : Graph Node)
    (hnd : g.vertices.Nodup) (scores : List (String × ℚ))
    (hs : dogBreedScores input_user g (dogBreedsOf g) = some scores)
    (hlim : limit ≤ (dogBreedsOf g).length) :
    ∃ out, get_demographic_recommendations input_user limit g = some out ∧
      out.length = limit := by
  obtain ⟨hkeys, hmem⟩ := dogBreedScores_spec hs
  have hnodup : (scores.map Prod.fst).Nodup := by
    rw [hkeys]
    exact dogBreedsOf_nodup hnd
  have hpos : ∀ p ∈ scores, (-1:ℚ) < p.2 := fun p hp =>
    lt_trans (by norm_num) (dogBreedScore_pos (hmem p hp))
  have hlen : limit ≤ scores.length := by
    rw [← hkeys, List.length_map] at hlim
    exact hlim
  obtain ⟨out, hout, holen⟩ := extractTop_length limit scores hnodup hpos hlen
  refine ⟨out, ?_, holen⟩
  unfold get_demographic_recommendations
  rw [hs]
  exact hout

/-- C3 witness: the exact-`K` theorem applied to a concrete graph with
one breed vertex (`"Beagle"`, no owners) and `K = 1`. -/
theorem C3_witness :
    ∃ out, get_demographic_recommendations queryUser 1 beagleGraph = some out ∧
      out.length = 1 :=
  C3_returns_limit queryUser 1 beagleGraph (by decide) [("Beagle", 7/10)]
    (by norm_num [dogBreedScores, dogBreedScore, dogBreedsOf, Graph.get_all_nodes,
      Graph.get_neighbours, ownerSimilarities, beagleGraph, Graph.runOps,
      Graph.applyOp, Graph.add_vertex, Graph.empty])
    (by decide)

/-- C6: for every non-empty score list ordered so that the first entry
is the maximum (at most `1`) and the last entry is the minimum
(strictly between `0` and `1`), and every target spread parameter in
`(0, 1)`, `curve_data` succeeds and preserves the rank order of
scores: whenever the score at position `k` is at least the score at
position `l`, the curved score at `k` is at least the curved score at
`l` (the remap `s ↦ (s + diff) ** power - diff` is monotone). -/
theorem C6_curve_monotone (t : ℝ) (data : List (String × ℝ)) (lastE headE : String × ℝ)
    (hl : data.getLast? = some lastE) (hh : data.head? = some headE)
    (hmin0 : 0 < lastE.2) (hmin1 : lastE.2 < 1) (hmax : headE.2 ≤ 1)
    (hlb : ∀ p ∈ data, lastE.2 ≤ p.2) (ht0 : 0 < t) (ht1 : t < 1) :
    ∃ out, curve_data t data = some out ∧ out.length = data.length ∧
      (∀ k l pk pl ok ol, data.get? k = some pk → data.get? l = some pl →
        out.get? k = some ok → out.get? l = some ol →
        pl.2 ≤ pk.2 → ol.2 ≤ ok.2) := by
  have hpow : 0 ≤ Real.log (1 - t) / Real.log lastE.2 := by
    have ha : Real.log (1 - t) < 0 := Real.log_neg (by linarith) (by linarith)
    have hb : Real.log lastE.2 < 0 := Real.log_neg hmin0 hmin1
    exact le_of_lt (div_pos_of_neg_of_neg ha hb)
  unfold curve_data
  rw [hl, hh]
  dsimp only
  refine ⟨_, rfl, List.length_map _ _, ?_⟩
  intro k l pk pl ok ol hk hl' hok hol hle
  rw [List.get?_map, hk] at hok
  rw [List.get?_map, hl'] at hol
  injection hok with hok2
  injection hol with hol2
  subst hok2
  subst hol2
  dsimp only
  have hmemk := List.get?_mem hk
  have hmeml := List.get?_mem hl'
  have h1 : 0 ≤ pl.2 + (1 - headE.2) := by
    have := hlb pl hmeml
    linarith
  have h2 : pl.2 + (1 - headE.2) ≤ pk.2 + (1 - headE.2) := by linarith
  exact sub_le_sub_right (Real.rpow_le_rpow h1 h2 hpow) _

/-- C6 witness: the monotonicity theorem applied to the concrete
descending list `[("a", 3/4), ("b", 1/2)]` with target spread `1/2`. -/
theorem C6_witness :
    ∃ out, curve_data (1/2) [("a", 3/4), ("b", 1/2)] = some out ∧
      out.length = ([("a", (3:ℝ)/4), ("b", 1/2)] : List (String × ℝ)).length ∧
      (∀ k l pk pl ok ol,
        ([("a", (3:ℝ)/4), ("b", 1/2)] : List (String × ℝ)).get? k = some pk →
        ([("a", (3:ℝ)/4), ("b", 1/2)] : List (String × ℝ)).get? l = some pl →
        out.get? k = some ok → out.get? l = some ol →
        pl.2 ≤ pk.2 → ol.2 ≤ ok.2) :=
  C6_curve_monotone (1/2) [("a", 3/4), ("b", 1/2)] ("b", 1/2) ("a", 3/4)
    rfl rfl (by norm_num) (by norm_num) (by norm_num)
    (by
      intro p hp
      simp only [List.mem_cons, List.not_mem_nil, or_false] at hp
      rcases hp with rfl | rfl <;> norm_num)
    (by norm_num) (by norm_num)

end PupPal
